import Mathlib

/-!
Shallow embedding of the keiba-dashboard scripts
(`scripts/add-bet.py`, `scripts/build.py`, `scripts/validate-keiba-json.py`)
and proofs about the aggregation engine, the selection parser, the roster
enrichment and the selection validator.

Integers are modelled as `Int` (Python integers are unbounded); the
floating-point expression `round(payout / invest * 100)` is modelled by the
exact half-to-even rounding of the rational `payout * 100 / invest`
(`roundHalfEven`), which is what Python's `round` computes whenever the
float division is exact.
-/

namespace Keiba

/-- A wager, as stored in a race's `bets` array (`add-bet.py`, `main`). -/
structure Bet where
  type : String
  selection : String
  amount : Int
  payout : Int
  weapon : String
  result : String
deriving DecidableEq

/-- A race entry of the `races` mapping: `{date, name, title, horses, bets}`. -/
structure Race where
  date : String
  name : String
  title : String
  horses : List (String × String)
  bets : List Bet
deriving DecidableEq

/-- One element of the `daily` array. -/
structure DailyEntry where
  date : String
  dayOfWeek : String
  invest : Int
  payout : Int
  profit : Int
  cumulative : Int
  note : String
deriving DecidableEq

/-- One element of the `monthly` array. -/
structure MonthlyEntry where
  month : String
  invest : Int
  payout : Int
  profit : Int
  roi : Int
deriving DecidableEq

/-- The `summary` object. -/
structure Summary where
  totalInvest : Int
  totalPayout : Int
  totalProfit : Int
  roi : Int
deriving DecidableEq

/-- The ledger document (`data_2026.json`).  The `races` dict is modelled as
an association list in insertion order, which is how Python iterates it. -/
structure Ledger where
  lastUpdated : String
  summary : Summary
  monthly : List MonthlyEntry
  daily : List DailyEntry
  races : List (String × Race)
deriving DecidableEq

/-- Python's `round(num / den)` for integers with `den > 0`: rounds half to
even (banker's rounding), which is how Python rounds the exact quotient. -/
def roundHalfEven (num den : Int) : Int :=
  let q := num.fdiv den
  let r := num.fmod den
  if 2 * r < den then q
  else if den < 2 * r then q + 1
  else if q % 2 = 0 then q else q + 1

/-- Python `s[:7]`, the month key of a date string (`update_monthly`). -/
def monthKey (s : String) : String := String.mk (s.data.take 7)

/-- Python `s.startswith(p)`. -/
def strStartsWith (s p : String) : Bool := p.data.isPrefixOf s.data

/-- `update_summary` (`add-bet.py` lines 104-117): recompute the grand
summary by summing `amount` and `payout` over every bet of every race. -/
def update_summary (data : Ledger) : Ledger :=
  let total_invest := (data.races.map (fun kr => (kr.2.bets.map Bet.amount).sum)).sum
  let total_payout := (data.races.map (fun kr => (kr.2.bets.map Bet.payout).sum)).sum
  { data with summary :=
      { totalInvest := total_invest
        totalPayout := total_payout
        totalProfit := total_payout - total_invest
        roi := if 0 < total_invest then roundHalfEven (total_payout * 100) total_invest else 0 } }

/-- The `note` computed by `update_daily`: the last non-empty `title` among
the races whose key starts with `date`, else `""`. -/
def lastTitle (races : List (String × Race)) (date : String) : String :=
  races.foldl
    (fun note kr =>
      if strStartsWith kr.1 date then (if kr.2.title ≠ "" then kr.2.title else note) else note)
    ""

/-- The in-place field update of the first existing daily entry for `date`
(`update_daily`, the `if daily_entry:` branch).  A stored `note` is only
overwritten when the freshly computed `note` is non-empty. -/
def updateFirstDaily (date : String) (invest payout profit : Int) (note : String) :
    List DailyEntry → List DailyEntry
  | [] => []
  | d :: ds =>
    if d.date = date then
      { d with invest := invest, payout := payout, profit := profit,
               note := if note ≠ "" then note else d.note } :: ds
    else d :: updateFirstDaily date invest payout profit note ds

/-- The final loop of `update_daily`: recompute every entry's `cumulative`
as the running sum of `profit`, starting from `acc`. -/
def recompCumulative (acc : Int) : List DailyEntry → List DailyEntry
  | [] => []
  | d :: ds => { d with cumulative := acc + d.profit } :: recompCumulative (acc + d.profit) ds

/-- The comparison used by `data["daily"].sort(key=lambda x: x["date"])`. -/
def dailyLE (a b : DailyEntry) : Prop := a.date ≤ b.date

instance : DecidableRel dailyLE := fun a b =>
  decidable_of_iff (¬ b.date.data < a.date.data)
    (by rw [show b.date.data = b.date.toList from rfl,
          show a.date.data = a.date.toList from rfl, ← String.lt_iff_toList_lt]
        exact not_lt)

instance : IsTotal DailyEntry dailyLE := ⟨fun a b => le_total a.date b.date⟩

instance : IsTrans DailyEntry dailyLE := ⟨fun _ _ _ h h₂ => le_trans h h₂⟩

/-- `update_daily` (`add-bet.py` lines 120-166). -/
def update_daily (data : Ledger) (date dow : String) : Ledger :=
  let dayRaces := data.races.filter (fun kr => strStartsWith kr.1 date)
  let invest := (dayRaces.map (fun kr => (kr.2.bets.map Bet.amount).sum)).sum
  let payout := (dayRaces.map (fun kr => (kr.2.bets.map Bet.payout).sum)).sum
  let note := lastTitle data.races date
  let profit := payout - invest
  let newDaily :=
    if data.daily.any (fun d => d.date = date) then
      updateFirstDaily date invest payout profit note data.daily
    else
      List.insertionSort dailyLE
        (data.daily ++ [{ date := date, dayOfWeek := dow, invest := invest, payout := payout,
                          profit := profit, cumulative := 0, note := note }])
  { data with daily := recompCumulative 0 newDaily }

/-- One step of the `monthly_data` dict accumulation of `update_monthly`:
add `(inv, pay)` to the group of `key`, creating the group if absent. -/
def addMonth (key : String) (inv pay : Int) :
    List (String × Int × Int) → List (String × Int × Int)
  | [] => [(key, inv, pay)]
  | g :: gs =>
    if g.1 = key then (g.1, g.2.1 + inv, g.2.2 + pay) :: gs
    else g :: addMonth key inv pay gs

/-- The `monthly_data` dict of `update_monthly`, keyed by `d["date"][:7]`,
in insertion order. -/
def groupMonths (daily : List DailyEntry) : List (String × Int × Int) :=
  daily.foldl (fun m d => addMonth (monthKey d.date) d.invest d.payout m) []

/-- The comparison used by `sorted(monthly_data.items())`; the keys are
distinct, so Python's tuple comparison never reaches the values. -/
def monthLE (a b : String × Int × Int) : Prop := a.1 ≤ b.1

instance : DecidableRel monthLE := fun a b =>
  decidable_of_iff (¬ b.1.data < a.1.data)
    (by rw [show b.1.data = b.1.toList from rfl,
          show a.1.data = a.1.toList from rfl, ← String.lt_iff_toList_lt]
        exact not_lt)

instance : IsTotal (String × Int × Int) monthLE := ⟨fun a b => le_total a.1 b.1⟩

instance : IsTrans (String × Int × Int) monthLE := ⟨fun _ _ _ h h₂ => le_trans h h₂⟩

/-- `update_monthly` (`add-bet.py` lines 169-190). -/
def update_monthly (data : Ledger) : Ledger :=
  { data with monthly :=
      (List.insertionSort monthLE (groupMonths data.daily)).map (fun g =>
        let inv : Int := g.2.1
        let pay : Int := g.2.2
        { month := g.1
          invest := inv
          payout := pay
          profit := pay - inv
          roi := if 0 < inv then roundHalfEven (pay * 100) inv else 0 }) }

/-- Python `str.split('-')` on the underlying character list. -/
def splitDashAux : List Char → List (List Char)
  | [] => [[]]
  | c :: cs =>
    if c = '-' then [] :: splitDashAux cs
    else
      match splitDashAux cs with
      | [] => [[c]]
      | p :: ps => (c :: p) :: ps

/-- Python `selection.split('-')`. -/
def splitDash (s : String) : List String := (splitDashAux s.data).map String.mk

/-- Python `s.zfill(w)` for the digit-only strings used by the scripts. -/
def zfill (w : Nat) (s : String) : String :=
  if w ≤ s.length then s else String.mk (List.replicate (w - s.length) '0' ++ s.data)

/-- Python `re.sub(r'\D', '', s)`: keep only the digit characters. -/
def stripNonDigits (s : String) : String := String.mk (s.data.filter Char.isDigit)

/-- `extract_horse_numbers` (`build.py` lines 61-77): collect into a set the
digit-stripped, two-digit zero-padded segments of each bet's hyphen-split
`selection`, skipping empty selections and all-non-digit segments.  The
function is pure and total. -/
def extract_horse_numbers (bets : List Bet) : Finset String :=
  bets.foldl
    (fun acc bet =>
      if bet.selection = "" then acc
      else
        (splitDash bet.selection).foldl
          (fun acc2 num =>
            if stripNonDigits num ≠ "" then insert (zfill 2 (stripNonDigits num)) acc2
            else acc2)
          acc)
    ∅

/-- First-match lookup in an association list (Python `dict.get`). -/
def lookupAssoc (m : List (String × String)) (k : String) : Option String :=
  (m.find? (fun kv => kv.1 = k)).map (fun kv => kv.2)

/-- The `horses` enrichment loop of `add-bet.py` `main` (lines 329-335):
for each selected number, if its padded form is not yet a key of the race's
`horses` dict, look the name up in the DB result and store it when found. -/
def addHorses (dbHorses : List (String × String)) (selNums : List String)
    (horses : List (String × String)) : List (String × String) :=
  selNums.foldl
    (fun hs num =>
      let padded := zfill 2 num
      if hs.any (fun kv => kv.1 = padded) then hs
      else
        let name :=
          match lookupAssoc dbHorses padded with
          | some n => n
          | none =>
            match lookupAssoc dbHorses num with
            | some n => n
            | none => ""
        if name ≠ "" then hs ++ [(padded, name)] else hs)
    horses

/-- The append portion of `add-bet.py` `main` (lines 313-354): create the
race entry if absent, enrich `horses` from the DB result `dbHorses`, append
the bet, and set `lastUpdated`.  The rollup updates are applied separately,
as in the source. -/
def appendBet (data : Ledger) (date venue : String) (race_num : Nat)
    (dbHorses : List (String × String)) (bet : Bet) : Ledger :=
  let race_name := venue ++ Nat.repr race_num ++ "R"
  let race_key := date ++ "_" ++ race_name
  let races₀ :=
    if data.races.any (fun kr => kr.1 = race_key) then data.races
    else data.races ++ [(race_key,
      { date := date, name := race_name, title := "", horses := [], bets := [] })]
  let selNums := splitDash bet.selection
  let races₁ := races₀.map (fun kr =>
    if kr.1 = race_key then
      (kr.1, { kr.2 with horses := addHorses dbHorses selNums kr.2.horses,
                         bets := kr.2.bets ++ [bet] })
    else kr)
  { data with lastUpdated := date, races := races₁ }

/-- The empty ledger document (`load_data` when the file does not exist). -/
def emptyLedger : Ledger :=
  { lastUpdated := ""
    summary := { totalInvest := 0, totalPayout := 0, totalProfit := 0, roi := 0 }
    monthly := []
    daily := []
    races := [] }

/-- The single wager of the end-to-end scenario. -/
def c1Bet : Bet :=
  { type := "単勝", selection := "05", amount := 1000, payout := 2500,
    weapon := "-", result := "的中" }

/-- The document after appending the end-to-end wager and running the three
recomputation procedures in the order `main` runs them. -/
def c1Result : Ledger :=
  update_summary (update_monthly
    (update_daily (appendBet emptyLedger "2026-02-01" "東京" 5 [] c1Bet) "2026-02-01" "日"))

/-- A `\d{1,2}` token of `SELECTION_PATTERN`. -/
def num12 (s : String) : Bool :=
  (s.length == 1 || s.length == 2) && s.data.all Char.isDigit

/-- The `枠\d{1,2}-\d{1,2}` alternative of `SELECTION_PATTERN`. -/
def wakuForm (s : String) : Bool :=
  match s.data with
  | '枠' :: rest =>
    match splitDashAux rest with
    | [a, b] => num12 (String.mk a) && num12 (String.mk b)
    | _ => false
  | _ => false

/-- Python `sel_str.startswith('枠')`. -/
def startsWaku (s : String) : Bool :=
  match s.data with
  | '枠' :: _ => true
  | _ => false

/-- `SELECTION_PATTERN` (`validate-keiba-json.py` line 24): the anchored
regex `^(\d{1,2}(-\d{1,2}){0,2}|枠\d{1,2}-\d{1,2})$`, with the first
alternative expressed through the hyphen-split segments. -/
def SELECTION_PATTERN (s : String) : Bool :=
  (decide (1 ≤ (splitDash s).length) && decide ((splitDash s).length ≤ 3)
    && (splitDash s).all num12)
  || wakuForm s

/-- `validate_selection` (`validate-keiba-json.py` lines 51-73) as the
accept/reject boolean (the diagnostic strings are dropped). -/
def validate_selection (selection bet_type : String) : Bool :=
  if selection == "" || selection == "-" || selection == "0" then false
  else if selection.data.contains ',' || selection.data.contains '番' then false
  else if bet_type == "枠連" then startsWaku selection || SELECTION_PATTERN selection
  else SELECTION_PATTERN selection

/-- The claim's acceptance predicate, following the spec's words: accept
exactly a 1-2 digit number, a hyphen-joined sequence of 2 or 3 such
numbers, or — only when the bet type is `枠連` — a `枠N-N` form, while the
blanket rejections (empty, `-`, `0`, comma, `番`) always apply. -/
def claimed_selection_ok (selection bet_type : String) : Bool :=
  (!((selection == "" || selection == "-" || selection == "0")
      || (selection.data.contains ',' || selection.data.contains '番'))) &&
  (num12 selection
    || (((splitDash selection).length == 2 || (splitDash selection).length == 3)
         && (splitDash selection).all num12)
    || (bet_type == "枠連" && wakuForm selection))

/-- The amended acceptance predicate: as the claim, except that the `枠N-N`
form is accepted for every bet type, and for `枠連` any selection starting
with `枠` is accepted as well. -/
def amended_selection_ok (selection bet_type : String) : Bool :=
  (!((selection == "" || selection == "-" || selection == "0")
      || (selection.data.contains ',' || selection.data.contains '番'))) &&
  (num12 selection
    || (((splitDash selection).length == 2 || (splitDash selection).length == 3)
         && (splitDash selection).all num12)
    || wakuForm selection
    || (bet_type == "枠連" && startsWaku selection))

/-- The fixed venue-name → venue-code table (`JYO_CODE`). -/
def JYO_CODE : List (String × String) :=
  [("札幌", "01"), ("函館", "02"), ("福島", "03"), ("新潟", "04"), ("東京", "05"),
   ("中山", "06"), ("中京", "07"), ("京都", "08"), ("阪神", "09"), ("小倉", "10")]

/-- Match `(\d+)R` at the head of `cs`: a non-empty maximal digit run
followed by `R` (the regex match is a prefix match, so trailing characters
are allowed). -/
def scanNumR (cs : List Char) : Option String :=
  match cs.drop (cs.takeWhile Char.isDigit).length with
  | 'R' :: _ =>
    if cs.takeWhile Char.isDigit = [] then none else some (String.mk (cs.takeWhile Char.isDigit))
  | _ => none

/-- The lazy `(.+?)(\d+)R` part of the race-key regex: extend the venue-name
group one character at a time until `(\d+)R` matches right after it. -/
def findNumR (acc : List Char) : List Char → Option (String × String)
  | [] => none
  | c :: cs =>
    match scanNumR cs with
    | some num => some (String.mk (acc ++ [c]), num)
    | none => findNumR (acc ++ [c]) cs

/-- The `\d{4}-\d{2}-\d{2}` prefix of the race-key regex. -/
def isDateChars : List Char → Bool
  | [y₁, y₂, y₃, y₄, h₁, m₁, m₂, h₂, d₁, d₂] =>
    y₁.isDigit && y₂.isDigit && y₃.isDigit && y₄.isDigit && h₁ == '-' &&
    m₁.isDigit && m₂.isDigit && h₂ == '-' && d₁.isDigit && d₂.isDigit
  | _ => false

/-- `parse_race_key` (`build.py` lines 40-58): decompose
`"{YYYY-MM-DD}_{venueName}{raceNum}R"` into the separator-free date, the
venue code and the zero-padded race number; `none` models the
`(None, None, None)` failure returns. -/
def parse_race_key (race_key : String) : Option (String × String × String) :=
  let cs := race_key.data
  if isDateChars (cs.take 10) && ((cs.drop 10).head? == some '_') then
    match findNumR [] (cs.drop 11) with
    | none => none
    | some (place, num) =>
      match lookupAssoc JYO_CODE place with
      | none => none
      | some code =>
        some (String.mk ((cs.take 10).filter (fun c => c != '-')), code, zfill 2 num)
  else none

/-- One race's enrichment step inside `build` (`build.py` lines 144-168):
skip the race when its roster is already non-empty, when its key does not
parse, when its bets reference no numbers, or when the database is absent;
otherwise install the looked-up roster when it is non-empty.  The JV-Link
database query (`get_horse_names`) is abstracted as the oracle `conn`. -/
def buildRace
    (conn : Option (String → String → String → Finset String → List (String × String)))
    (race_key : String) (race : Race) : Race :=
  if race.horses ≠ [] then race
  else
    match parse_race_key race_key with
    | none => race
    | some (race_date, jyo_code, race_num) =>
      if extract_horse_numbers race.bets = ∅ then race
      else
        match conn with
        | none => race
        | some db =>
          if db race_date jyo_code race_num (extract_horse_numbers race.bets) ≠ [] then
            { race with horses := db race_date jyo_code race_num (extract_horse_numbers race.bets) }
          else race

/-- `build` (`build.py`): enrich every race of the document. -/
def build
    (conn : Option (String → String → String → Finset String → List (String × String)))
    (data : Ledger) : Ledger :=
  { data with races := data.races.map (fun kr => (kr.1, buildRace conn kr.1 kr.2)) }

/-- A small concrete race used to instantiate the general theorems. -/
def wRace : Race :=
  { date := "2026-03-01", name := "中山1R", title := "", horses := [],
    bets := [{ type := "単勝", selection := "01", amount := 100, payout := 0,
               weapon := "-", result := "-" }] }

/-- A small concrete ledger used to instantiate the general theorems. -/
def wLedger : Ledger :=
  { lastUpdated := ""
    summary := { totalInvest := 0, totalPayout := 0, totalProfit := 0, roi := 0 }
    monthly := []
    daily := []
    races := [("2026-03-01_中山1R", wRace)] }

/-- `wLedger` with a different non-`races` field, to instantiate the
read-only-from-`races` statements. -/
def wLedger' : Ledger := { wLedger with lastUpdated := "2026-03-01" }

/-- Summing a function over the flattened bet lists equals summing the
per-race sums, as the nested loops of `update_summary` do. -/
theorem sum_map_flatten_bets (races : List (String × Race)) (f : Bet → Int) :
    ((races.map (fun kr => kr.2.bets)).flatten.map f).sum
      = (races.map (fun kr => (kr.2.bets.map f).sum)).sum := by
  induction races with
  | nil => rfl
  | cons kr rest ih =>
    simp only [List.map_cons, List.flatten_cons, List.map_append, List.sum_append,
      List.sum_cons, ih]

/-- Entry-wise observations that ignore `cumulative` pass through
`recompCumulative` unchanged. -/
theorem recompCumulative_map {α : Type} (f : DailyEntry → α)
    (hf : ∀ (d : DailyEntry) (c : Int), f { d with cumulative := c } = f d) :
    ∀ (acc : Int) (l : List DailyEntry), (recompCumulative acc l).map f = l.map f
  | _, [] => rfl
  | acc, d :: ds => by
    simp only [recompCumulative, List.map_cons, hf,
      recompCumulative_map f hf (acc + d.profit) ds]

/-- Each entry of `recompCumulative acc l` carries `acc` plus the running
sum of `profit` over the output prefix ending at it. -/
theorem recompCumulative_get :
    ∀ (l : List DailyEntry) (acc : Int) (i : Nat) (h : i < (recompCumulative acc l).length),
      ((recompCumulative acc l).get ⟨i, h⟩).cumulative
        = acc + (((recompCumulative acc l).take (i + 1)).map (fun d => d.profit)).sum
  | [], _, i, h => absurd h (by simp [recompCumulative])
  | d :: ds, acc, 0, _ => by
    simp [recompCumulative]
  | d :: ds, acc, i + 1, h => by
    have h' : i < (recompCumulative (acc + d.profit) ds).length := by
      have := h
      simp only [recompCumulative, List.length_cons] at this
      omega
    calc ((recompCumulative acc (d :: ds)).get ⟨i + 1, h⟩).cumulative
        = ((recompCumulative (acc + d.profit) ds).get ⟨i, h'⟩).cumulative := rfl
      _ = (acc + d.profit)
            + (((recompCumulative (acc + d.profit) ds).take (i + 1)).map
                (fun d => d.profit)).sum :=
          recompCumulative_get ds (acc + d.profit) i h'
      _ = acc + (((recompCumulative acc (d :: ds)).take (i + 2)).map
                (fun d => d.profit)).sum := by
          simp only [recompCumulative, List.take_succ_cons, List.map_cons, List.sum_cons]
          ring

/-- Running-sum correctness: each entry's `cumulative` equals the sum of
`profit` over the entries of the list up to and including it. -/
def CumOk (l : List DailyEntry) : Prop :=
  ∀ (i : Nat) (h : i < l.length),
    (l.get ⟨i, h⟩).cumulative = ((l.take (i + 1)).map (fun d => d.profit)).sum

/-- The cumulative rescan establishes `CumOk` on any list. -/
theorem cumOk_recompCumulative (l : List DailyEntry) : CumOk (recompCumulative 0 l) := by
  intro i h
  simpa using recompCumulative_get l 0 i h

/-- The in-place update leaves every entry's `date` unchanged. -/
theorem updateFirstDaily_map_date (date : String) (inv pay pr : Int) (note : String) :
    ∀ l : List DailyEntry,
      (updateFirstDaily date inv pay pr note l).map (fun d => d.date)
        = l.map (fun d => d.date)
  | [] => rfl
  | d :: ds => by
    by_cases hd : d.date = date
    · simp [updateFirstDaily, hd]
    · simp [updateFirstDaily, hd, updateFirstDaily_map_date date inv pay pr note ds]

/-- When the computed `note` is empty, the in-place update leaves every
entry's `(date, note)` pair unchanged. -/
theorem updateFirstDaily_map_pair (date : String) (inv pay pr : Int) :
    ∀ l : List DailyEntry,
      (updateFirstDaily date inv pay pr "" l).map (fun d => (d.date, d.note))
        = l.map (fun d => (d.date, d.note))
  | [] => rfl
  | d :: ds => by
    by_cases hd : d.date = date
    · simp [updateFirstDaily, hd]
    · simp [updateFirstDaily, hd, updateFirstDaily_map_pair date inv pay pr ds]

/-- If no race of the scanned day carries a non-empty title, the note fold
of `update_daily` returns its start value. -/
theorem foldl_title_const (date : String) :
    ∀ (races : List (String × Race)),
      (∀ kr ∈ races, strStartsWith kr.1 date = true → kr.2.title = "") →
      ∀ note₀ : String,
        races.foldl
          (fun note kr =>
            if strStartsWith kr.1 date then
              (if kr.2.title ≠ "" then kr.2.title else note)
            else note)
          note₀ = note₀
  | [], _, _ => rfl
  | kr :: rest, h, note₀ => by
    have hrest := fun kr' hkr' => h kr' (List.mem_cons_of_mem kr hkr')
    simp only [List.foldl_cons]
    by_cases hpre : strStartsWith kr.1 date = true
    · have htitle : kr.2.title = "" := h kr (List.mem_cons_self kr rest) hpre
      simp only [hpre, if_true, htitle, ne_eq, not_true_eq_false, if_neg, ite_self]
      exact foldl_title_const date rest hrest note₀
    · simp only [hpre]
      simpa [hpre] using foldl_title_const date rest hrest note₀

/-- `lastTitle` is empty when no race of the day is titled. -/
theorem lastTitle_empty (races : List (String × Race)) (date : String)
    (h : ∀ kr ∈ races, strStartsWith kr.1 date = true → kr.2.title = "") :
    lastTitle races date = "" :=
  foldl_title_const date races h ""

/-- An operation of the aggregation engine. -/
inductive AggOp where
  | dailyOp (date dow : String)
  | monthlyOp
  | summaryOp

/-- Run one aggregation operation on the document. -/
def applyOp (data : Ledger) : AggOp → Ledger
  | .dailyOp date dow => update_daily data date dow
  | .monthlyOp => update_monthly data
  | .summaryOp => update_summary data

/-- C1: starting from the empty ledger, appending the single wager
`{date 2026-02-01, venue 東京, race 5, 単勝 "05", amount 1000, payout 2500}`
and running `update_daily`, `update_monthly`, `update_summary` yields the
summary `{1000, 2500, 1500, 250}`, exactly one daily entry
`{2026-02-01, invest 1000, payout 2500, profit 1500, cumulative 1500}` and
exactly one monthly entry `{2026-02, 1000, 2500, 1500, roi 250}`. -/
theorem c1_end_to_end :
    c1Result.summary =
      { totalInvest := 1000, totalPayout := 2500, totalProfit := 1500, roi := 250 } ∧
    c1Result.daily =
      [{ date := "2026-02-01", dayOfWeek := "日", invest := 1000, payout := 2500,
         profit := 1500, cumulative := 1500, note := "" }] ∧
    c1Result.monthly =
      [{ month := "2026-02", invest := 1000, payout := 2500, profit := 1500, roi := 250 }] := by
  decide

/-- C3: after `update_summary` the grand summary sums `amount` and `payout`
over every bet in every race, `totalProfit = totalPayout - totalInvest`,
and the resulting summary depends only on the `races` mapping (any two
documents with the same races get the same summary), so the identity holds
after every sequence of wager appends. -/
theorem c3_summary_from_races (data data' : Ledger) (h : data.races = data'.races) :
    (update_summary data).summary.totalInvest
        = ((data.races.map (fun kr => kr.2.bets)).flatten.map (fun b => b.amount)).sum ∧
    (update_summary data).summary.totalPayout
        = ((data.races.map (fun kr => kr.2.bets)).flatten.map (fun b => b.payout)).sum ∧
    (update_summary data).summary.totalProfit
        = (update_summary data).summary.totalPayout
            - (update_summary data).summary.totalInvest ∧
    (update_summary data).summary = (update_summary data').summary := by
  refine ⟨?_, ?_, rfl, ?_⟩
  · exact (sum_map_flatten_bets data.races (fun b => b.amount)).symm
  · exact (sum_map_flatten_bets data.races (fun b => b.payout)).symm
  · simp only [update_summary, h]

/-- Witness for C3 at a concrete document. -/
theorem c3_summary_from_races_witness :
    (update_summary wLedger).summary.totalInvest
        = ((wLedger.races.map (fun kr => kr.2.bets)).flatten.map (fun b => b.amount)).sum ∧
    (update_summary wLedger).summary.totalPayout
        = ((wLedger.races.map (fun kr => kr.2.bets)).flatten.map (fun b => b.payout)).sum ∧
    (update_summary wLedger).summary.totalProfit
        = (update_summary wLedger).summary.totalPayout
            - (update_summary wLedger).summary.totalInvest ∧
    (update_summary wLedger).summary = (update_summary wLedger').summary :=
  c3_summary_from_races wLedger wLedger' rfl

/-- C5: the ROI divisions of `update_summary` and `update_monthly` are
guarded: an aggregated invest of `0` yields ROI `0` without dividing, and a
positive invest yields `round(payout / invest * 100)` (half to even). -/
theorem c5_roi_guard (data : Ledger) :
    ((update_summary data).summary.totalInvest = 0 → (update_summary data).summary.roi = 0) ∧
    (0 < (update_summary data).summary.totalInvest →
      (update_summary data).summary.roi
        = roundHalfEven ((update_summary data).summary.totalPayout * 100)
            (update_summary data).summary.totalInvest) ∧
    ∀ e ∈ (update_monthly data).monthly,
      (e.invest = 0 → e.roi = 0) ∧
      (0 < e.invest → e.roi = roundHalfEven (e.payout * 100) e.invest) := by
  refine ⟨?_, ?_, ?_⟩
  · intro h
    simp only [update_summary] at h ⊢
    rw [h]
    simp
  · intro h
    simp only [update_summary] at h ⊢
    rw [if_pos h]
  · intro e he
    simp only [update_monthly, List.mem_map] at he
    obtain ⟨g, _, rfl⟩ := he
    dsimp only
    constructor
    · intro h0
      rw [h0]
      simp
    · intro hpos
      rw [if_pos hpos]

/-- Witness for C5: both guard branches at concrete documents. -/
theorem c5_roi_guard_witness :
    ((update_summary emptyLedger).summary.totalInvest = 0 ∧
      (update_summary emptyLedger).summary.roi = 0) ∧
    (0 < (update_summary wLedger).summary.totalInvest ∧
      (update_summary wLedger).summary.roi
        = roundHalfEven ((update_summary wLedger).summary.totalPayout * 100)
            (update_summary wLedger).summary.totalInvest) :=
  ⟨⟨by decide, (c5_roi_guard emptyLedger).1 (by decide)⟩,
   ⟨by decide, (c5_roi_guard wLedger).2.1 (by decide)⟩⟩

/-- C2: on a document whose daily list is sorted ascending by date,
`update_daily` keeps the list sorted ascending by date and recomputes every
entry's `cumulative` as the running sum of `profit` (in particular also
when a new date is inserted out of order). -/
theorem c2_daily_sorted_cumulative (data : Ledger) (date dow : String)
    (hs : (data.daily.map (fun d => d.date)).Sorted (· ≤ ·)) :
    ((update_daily data date dow).daily.map (fun d => d.date)).Sorted (· ≤ ·) ∧
    CumOk (update_daily data date dow).daily := by
  constructor
  · simp only [update_daily]
    rw [recompCumulative_map (fun d => d.date) (fun _ _ => rfl)]
    split
    · rw [updateFirstDaily_map_date]
      exact hs
    · exact List.pairwise_map.mpr (List.sorted_insertionSort dailyLE _)
  · simp only [update_daily]
    exact cumOk_recompCumulative _

/-- A daily entry used to instantiate the daily-rollup theorems. -/
def wDaily : DailyEntry :=
  { date := "2026-03-01", dayOfWeek := "日", invest := 100, payout := 0,
    profit := -100, cumulative := -100, note := "メモ" }

/-- A ledger with one daily entry and one race, used as concrete input. -/
def wLedgerD : Ledger :=
  { lastUpdated := ""
    summary := { totalInvest := 0, totalPayout := 0, totalProfit := 0, roi := 0 }
    monthly := []
    daily := [wDaily]
    races := [("2026-03-01_中山1R", wRace)] }

/-- Witness for C2 at a concrete sorted document (out-of-order new date). -/
theorem c2_daily_sorted_cumulative_witness :
    ((update_daily wLedgerD "2026-02-28" "土").daily.map (fun d => d.date)).Sorted (· ≤ ·) ∧
    CumOk (update_daily wLedgerD "2026-02-28" "土").daily :=
  c2_daily_sorted_cumulative wLedgerD "2026-02-28" "土" (by decide)

/-- Membership in the new-entry branch of `update_daily`: the `(date, note)`
pair of any resulting entry comes either from the old list or from the
freshly appended entry. -/
theorem mem_recomp_sort_append (l : List DailyEntry) (x e : DailyEntry)
    (he : e ∈ recompCumulative 0 (List.insertionSort dailyLE (l ++ [x]))) :
    (e.date, e.note) ∈ l.map (fun d => (d.date, d.note)) ∨
    (e.date = x.date ∧ e.note = x.note) := by
  have hpair := List.mem_map_of_mem (fun d => (d.date, d.note)) he
  rw [recompCumulative_map (fun d => (d.date, d.note)) (fun _ _ => rfl)] at hpair
  rw [((List.perm_insertionSort dailyLE (l ++ [x])).map
      (fun d => (d.date, d.note))).mem_iff] at hpair
  simp only [List.map_append, List.mem_append, List.map_cons, List.map_nil,
    List.mem_singleton] at hpair
  rcases hpair with h | h
  · exact Or.inl h
  · exact Or.inr ⟨congrArg Prod.fst h, congrArg Prod.snd h⟩

/-- C10: when no race of the day carries a non-empty title, `update_daily`
leaves every existing entry's `note` unchanged (an existing note is not
cleared), while a freshly created entry for such a day gets `note = ""`. -/
theorem c10_note_preserved (data : Ledger) (date dow : String)
    (hno : ∀ kr ∈ data.races, strStartsWith kr.1 date = true → kr.2.title = "") :
    (data.daily.any (fun d => d.date = date) = true →
      (update_daily data date dow).daily.map (fun d => (d.date, d.note))
        = data.daily.map (fun d => (d.date, d.note))) ∧
    (data.daily.any (fun d => d.date = date) = false →
      ∀ e ∈ (update_daily data date dow).daily, e.date = date → e.note = "") := by
  have hnote : lastTitle data.races date = "" := lastTitle_empty data.races date hno
  constructor
  · intro hany
    simp only [update_daily, hnote, hany, if_true]
    rw [recompCumulative_map (fun d => (d.date, d.note)) (fun _ _ => rfl),
      updateFirstDaily_map_pair]
  · intro hany e he hdate
    simp only [update_daily, hnote, hany, Bool.false_eq_true, if_false] at he
    rcases mem_recomp_sort_append data.daily _ e he with h | h
    · exfalso
      have hnone : ∀ d ∈ data.daily, ¬ d.date = date := by
        simpa [List.any_eq_false] using hany
      simp only [List.mem_map] at h
      obtain ⟨d, hd, hpair⟩ := h
      exact hnone d hd ((congrArg Prod.fst hpair).trans hdate)
    · exact h.2

/-- Witness for C10 at a concrete document: the stored note survives. -/
theorem c10_note_preserved_witness :
    (wLedgerD.daily.any (fun d => d.date = "2026-03-01") = true →
      (update_daily wLedgerD "2026-03-01" "日").daily.map (fun d => (d.date, d.note))
        = wLedgerD.daily.map (fun d => (d.date, d.note))) ∧
    (wLedgerD.daily.any (fun d => d.date = "2026-03-01") = false →
      ∀ e ∈ (update_daily wLedgerD "2026-03-01" "日").daily,
        e.date = "2026-03-01" → e.note = "") :=
  c10_note_preserved wLedgerD "2026-03-01" "日" (by decide)

/-- C9: no recomputation procedure touches the `races` mapping (nor
`lastUpdated`): any sequence of `update_daily`, `update_monthly` and
`update_summary` calls, in any order, leaves them identical. -/
theorem c9_races_frame (data : Ledger) (ops : List AggOp) :
    (ops.foldl applyOp data).races = data.races ∧
    (ops.foldl applyOp data).lastUpdated = data.lastUpdated := by
  induction ops generalizing data with
  | nil => exact ⟨rfl, rfl⟩
  | cons op rest ih =>
    have h1 : (applyOp data op).races = data.races := by cases op <;> rfl
    have h2 : (applyOp data op).lastUpdated = data.lastUpdated := by cases op <;> rfl
    simpa [List.foldl_cons, h1, h2] using ih (applyOp data op)

/-- Membership after folding the inner segment loop of
`extract_horse_numbers` over one selection's segments. -/
theorem mem_segs_foldl (segs : List String) (acc : Finset String) (x : String) :
    (x ∈ segs.foldl
        (fun acc2 num =>
          if stripNonDigits num ≠ "" then insert (zfill 2 (stripNonDigits num)) acc2
          else acc2)
        acc) ↔
      x ∈ acc ∨ ∃ seg ∈ segs, stripNonDigits seg ≠ "" ∧ x = zfill 2 (stripNonDigits seg) := by
  induction segs generalizing acc with
  | nil => simp
  | cons s rest ih =>
    simp only [List.foldl_cons]
    rw [ih]
    by_cases h : stripNonDigits s = ""
    · simp [h]
    · simp only [h, ne_eq, not_false_eq_true, if_true, Finset.mem_insert,
        List.mem_cons]
      constructor
      · rintro (⟨hx | hx⟩ | hx)
        · exact Or.inr ⟨s, Or.inl rfl, h, hx⟩
        · exact Or.inl hx
        · obtain ⟨seg, hseg, hs, hx⟩ := hx
          exact Or.inr ⟨seg, Or.inr hseg, hs, hx⟩
      · rintro (hx | ⟨seg, hseg | hseg, hs, hx⟩)
        · exact Or.inl (Or.inr hx)
        · exact Or.inl (Or.inl (hseg ▸ hx))
        · exact Or.inr ⟨seg, hseg, hs, hx⟩

/-- Membership after folding the outer bet loop of `extract_horse_numbers`. -/
theorem mem_bets_foldl (bets : List Bet) (acc : Finset String) (x : String) :
    (x ∈ bets.foldl
        (fun acc bet =>
          if bet.selection = "" then acc
          else
            (splitDash bet.selection).foldl
              (fun acc2 num =>
                if stripNonDigits num ≠ "" then insert (zfill 2 (stripNonDigits num)) acc2
                else acc2)
              acc)
        acc) ↔
      x ∈ acc ∨ ∃ b ∈ bets, b.selection ≠ "" ∧
        ∃ seg ∈ splitDash b.selection,
          stripNonDigits seg ≠ "" ∧ x = zfill 2 (stripNonDigits seg) := by
  induction bets generalizing acc with
  | nil => simp
  | cons b rest ih =>
    simp only [List.foldl_cons]
    rw [ih]
    by_cases hsel : b.selection = ""
    · simp only [hsel, if_true, List.mem_cons]
      constructor
      · rintro (hx | hx)
        · exact Or.inl hx
        · obtain ⟨b', hb', hrest⟩ := hx
          exact Or.inr ⟨b', Or.inr hb', hrest⟩
      · rintro (hx | ⟨b', hb' | hb', hne, hrest⟩)
        · exact Or.inl hx
        · exact absurd (hb' ▸ hsel) hne
        · exact Or.inr ⟨b', hb', hne, hrest⟩
    · simp only [hsel, if_false, List.mem_cons]
      rw [mem_segs_foldl]
      constructor
      · rintro ((hx | hx) | hx)
        · exact Or.inl hx
        · exact Or.inr ⟨b, Or.inl rfl, hsel, hx⟩
        · obtain ⟨b', hb', hrest⟩ := hx
          exact Or.inr ⟨b', Or.inr hb', hrest⟩
      · rintro (hx | ⟨b', hb' | hb', hne, hrest⟩)
        · exact Or.inl (Or.inl hx)
        · exact Or.inl (Or.inr (hb' ▸ hrest))
        · exact Or.inr ⟨b', hb', hne, hrest⟩

/-- C6: `extract_horse_numbers` returns exactly the set of runner numbers
referenced across the bets' hyphen-split selection strings, each segment
stripped of non-digits and zero-padded to two digits; empty selections and
all-non-digit segments contribute nothing; and it maps `"05-11-13"` to
`{"05","11","13"}`, `"3"` to `{"03"}` and `""` to `∅`. -/
theorem c6_extract_horse_numbers (bets : List Bet) (x : String) :
    (x ∈ extract_horse_numbers bets ↔
      ∃ b ∈ bets, b.selection ≠ "" ∧
        ∃ seg ∈ splitDash b.selection,
          stripNonDigits seg ≠ "" ∧ x = zfill 2 (stripNonDigits seg)) ∧
    extract_horse_numbers [{ c1Bet with selection := "05-11-13" }] = {"05", "11", "13"} ∧
    extract_horse_numbers [{ c1Bet with selection := "3" }] = {"03"} ∧
    extract_horse_numbers [{ c1Bet with selection := "" }] = ∅ := by
  refine ⟨?_, by decide, by decide, by decide⟩
  have h := mem_bets_foldl bets ∅ x
  simp only [Finset.not_mem_empty, false_or] at h
  exact h

/-- C7: enrichment never overwrites a non-empty roster, whatever the
reference lookup would return, so running it twice on a race with a
populated roster equals running it once, and such a race survives `build`
unchanged. -/
theorem c7_roster_preserved
    (conn : Option (String → String → String → Finset String → List (String × String)))
    (data : Ledger) (k : String) (r : Race)
    (hmem : (k, r) ∈ data.races) (hne : r.horses ≠ []) :
    buildRace conn k r = r ∧
    buildRace conn k (buildRace conn k r) = buildRace conn k r ∧
    (k, r) ∈ (build conn data).races := by
  have h1 : buildRace conn k r = r := by
    unfold buildRace
    rw [if_pos hne]
  refine ⟨h1, by rw [h1]; exact h1, ?_⟩
  have hmap := List.mem_map_of_mem (fun kr : String × Race => (kr.1, buildRace conn kr.1 kr.2)) hmem
  simpa [build, h1] using hmap

/-- A database oracle used to instantiate the enrichment theorems. -/
def wConn : Option (String → String → String → Finset String → List (String × String)) :=
  some (fun _ _ _ _ => [("09", "別の馬")])

/-- A race with an already-populated roster. -/
def wRaceH : Race := { wRace with horses := [("01", "ウマ")] }

/-- A document holding `wRaceH`. -/
def wLedgerH : Ledger := { emptyLedger with races := [("2026-03-01_中山1R", wRaceH)] }

/-- Witness for C7 at a concrete race with a populated roster. -/
theorem c7_roster_preserved_witness :
    buildRace wConn "2026-03-01_中山1R" wRaceH = wRaceH ∧
    buildRace wConn "2026-03-01_中山1R" (buildRace wConn "2026-03-01_中山1R" wRaceH)
      = buildRace wConn "2026-03-01_中山1R" wRaceH ∧
    ("2026-03-01_中山1R", wRaceH) ∈ (build wConn wLedgerH).races :=
  c7_roster_preserved wConn wLedgerH "2026-03-01_中山1R" wRaceH (by decide) (by decide)

/-- `splitDashAux` never returns the empty list. -/
theorem splitDashAux_ne_nil : ∀ cs : List Char, splitDashAux cs ≠ []
  | [] => by simp [splitDashAux]
  | c :: cs => by
    simp only [splitDashAux]
    by_cases h : c = '-'
    · simp [h]
    · simp only [h, if_false]
      cases hsplit : splitDashAux cs <;> simp

/-- A one-segment split means the string had no separator: the segment is
the whole input. -/
theorem splitDashAux_eq_singleton : ∀ (cs l : List Char), splitDashAux cs = [l] → l = cs
  | [], l, h => by
    simp only [splitDashAux, List.cons.injEq, and_true] at h
    exact h.symm
  | c :: cs, l, h => by
    simp only [splitDashAux] at h
    by_cases hc : c = '-'
    · rw [if_pos hc] at h
      simp only [List.cons.injEq] at h
      exact absurd h.2 (splitDashAux_ne_nil cs)
    · rw [if_neg hc] at h
      rcases hsplit : splitDashAux cs with _ | ⟨p, ps⟩
      · exact absurd hsplit (splitDashAux_ne_nil cs)
      · rw [hsplit] at h
        simp only [List.cons.injEq] at h
        obtain ⟨hl, hps⟩ := h
        have hp : p = cs := splitDashAux_eq_singleton cs p (by rw [hsplit, hps])
        rw [← hl, hp]

/-- A dash-free character list splits into itself alone. -/
theorem splitDashAux_no_dash : ∀ cs : List Char, '-' ∉ cs → splitDashAux cs = [cs]
  | [], _ => rfl
  | c :: cs, h => by
    have hc : ¬ c = '-' := fun hc => h (hc ▸ List.mem_cons_self c cs)
    simp only [splitDashAux, if_neg hc,
      splitDashAux_no_dash cs (fun hmem => h (List.mem_cons_of_mem c hmem))]

/-- A `\d{1,2}` token contains no dash. -/
theorem num12_no_dash (s : String) (h : num12 s = true) : '-' ∉ s.data := by
  intro hmem
  simp only [num12, Bool.and_eq_true, List.all_eq_true] at h
  exact absurd (h.2 '-' hmem) (by decide)

/-- The `\d{1,2}(-\d{1,2}){0,2}` alternative, decided on the hyphen-split
segments, coincides with "a 1-2 digit number, or a hyphen-joined sequence
of 2 or 3 such numbers". -/
theorem digit_form_split (s : String) :
    (decide (1 ≤ (splitDash s).length) && decide ((splitDash s).length ≤ 3)
      && (splitDash s).all num12)
    = (num12 s
        || (((splitDash s).length == 2 || (splitDash s).length == 3)
             && (splitDash s).all num12)) := by
  have hne : splitDash s ≠ [] := by
    simp only [splitDash]
    intro h
    exact splitDashAux_ne_nil s.data (List.map_eq_nil_iff.mp h)
  by_cases h1 : (splitDash s).length = 1
  · obtain ⟨t, ht⟩ := List.length_eq_one.mp h1
    have hl : ∃ l, splitDashAux s.data = [l] ∧ String.mk l = t := by
      rcases hx : splitDashAux s.data with _ | ⟨p, ps⟩
      · exact absurd hx (splitDashAux_ne_nil s.data)
      · have hmap : (splitDashAux s.data).map String.mk = [t] := ht
        rw [hx] at hmap
        simp only [List.map_cons, List.cons.injEq] at hmap
        have hps : ps = [] := List.map_eq_nil_iff.mp hmap.2
        exact ⟨p, by rw [hps], hmap.1⟩
    obtain ⟨l, hlsplit, hlt⟩ := hl
    have hlcs : l = s.data := splitDashAux_eq_singleton s.data l hlsplit
    have hts : t = s := by rw [← hlt, hlcs]
    rw [ht, hts]
    simp
  · have hnum : num12 s = false := by
      cases hn : num12 s
      · rfl
      · exact absurd (by simp [splitDash, splitDashAux_no_dash s.data (num12_no_dash s hn)])
          h1
    have hpos : 0 < (splitDash s).length := List.length_pos.mpr hne
    rw [hnum, Bool.false_or]
    rcases Nat.lt_or_ge (splitDash s).length 4 with h4 | h4
    · have h23 : (splitDash s).length = 2 ∨ (splitDash s).length = 3 := by omega
      rcases h23 with h2 | h2 <;> rw [h2] <;> simp
    · have hd3 : decide ((splitDash s).length ≤ 3) = false := decide_eq_false (by omega)
      have hb2 : ((splitDash s).length == 2) = false := beq_eq_false_iff_ne.mpr (by omega)
      have hb3 : ((splitDash s).length == 3) = false := beq_eq_false_iff_ne.mpr (by omega)
      rw [hd3, hb2, hb3]
      simp

/-- C8 counterexample: the validator accepts `"枠5-5"` for bet type `単勝`
(the `枠N-N` alternative of `SELECTION_PATTERN` is not gated on the bet
type) and accepts the bare `"枠"` for `枠連` (any `枠`-prefixed value
passes), both of which the claim's acceptance predicate rejects. -/
theorem c8_counterexample :
    validate_selection "枠5-5" "単勝" = true ∧
    claimed_selection_ok "枠5-5" "単勝" = false ∧
    validate_selection "枠" "枠連" = true ∧
    claimed_selection_ok "枠" "枠連" = false := by
  decide

/-- C8 amended: `validate_selection` accepts exactly the amended predicate
— after the blanket rejections (empty, `"-"`, `"0"`, comma-containing,
`番`-containing, which are always rejected), a 1-2 digit number, a
hyphen-joined sequence of 2 or 3 such numbers, a `枠N-N` form (for every
bet type), or, when the bet type is `枠連`, any value starting with `枠`. -/
theorem c8_amended_validate_selection (selection bet_type : String) :
    validate_selection selection bet_type = amended_selection_ok selection bet_type ∧
    validate_selection "" bet_type = false ∧
    validate_selection "-" bet_type = false ∧
    validate_selection "0" bet_type = false ∧
    (selection.data.contains ',' = true → validate_selection selection bet_type = false) ∧
    (selection.data.contains '番' = true → validate_selection selection bet_type = false) := by
  refine ⟨?_, rfl, rfl, rfl, ?_, ?_⟩
  · unfold validate_selection amended_selection_ok SELECTION_PATTERN
    cases hA : (selection == "" || selection == "-" || selection == "0") with
    | true => simp [hA]
    | false =>
      cases hB : (selection.data.contains ',' || selection.data.contains '番') with
      | true => simp [hA, hB]
      | false =>
        simp only [hA, hB, Bool.false_eq_true, if_false, Bool.or_self, Bool.not_false,
          Bool.true_and]
        rw [digit_form_split]
        cases hbt : (bet_type == "枠連") with
        | true =>
          simp only [if_pos rfl, hbt, Bool.true_and]
          cases startsWaku selection <;> cases num12 selection <;>
            cases (((splitDash selection).length == 2 || (splitDash selection).length == 3)
              && (splitDash selection).all num12) <;> cases wakuForm selection <;> rfl
        | false =>
          simp only [hbt, Bool.false_eq_true, if_false, Bool.false_and, Bool.or_false]
  · intro h
    unfold validate_selection
    by_cases hA : (selection == "" || selection == "-" || selection == "0") = true
    · rw [if_pos hA]
    · rw [if_neg hA,
        if_pos (show (selection.data.contains ',' || selection.data.contains '番') = true by
          rw [h, Bool.true_or])]
  · intro h
    unfold validate_selection
    by_cases hA : (selection == "" || selection == "-" || selection == "0") = true
    · rw [if_pos hA]
    · rw [if_neg hA,
        if_pos (show (selection.data.contains ',' || selection.data.contains '番') = true by
          rw [h, Bool.or_true])]

/-- Witness for C8's amended theorem: the comma and `番` rejections at
concrete inputs. -/
theorem c8_amended_witness :
    validate_selection "1,2" "馬連" = false ∧ validate_selection "5番" "単勝" = false :=
  ⟨(c8_amended_validate_selection "1,2" "馬連").2.2.2.2.1 (by decide),
   (c8_amended_validate_selection "5番" "単勝").2.2.2.2.2 (by decide)⟩

/-- The keys after `addMonth`: unchanged when the key is already present,
otherwise the key is appended. -/
theorem addMonth_map_fst (key : String) (inv pay : Int) :
    ∀ m : List (String × Int × Int),
      (addMonth key inv pay m).map Prod.fst
        = if key ∈ m.map Prod.fst then m.map Prod.fst else m.map Prod.fst ++ [key]
  | [] => by simp [addMonth]
  | g :: gs => by
    by_cases hg : g.1 = key
    · simp [addMonth, hg]
    · have hkg : ¬ key = g.1 := fun hx => hg hx.symm
      simp only [addMonth, if_neg hg, List.map_cons, addMonth_map_fst key inv pay gs]
      by_cases hmem : key ∈ gs.map Prod.fst
      · rw [if_pos hmem, if_pos (List.mem_cons_of_mem _ hmem)]
      · rw [if_neg hmem, if_neg (fun hx => (List.mem_cons.mp hx).elim hkg hmem),
          List.cons_append]

/-- Key membership after `addMonth`. -/
theorem mem_addMonth_fst (key x : String) (inv pay : Int) (m : List (String × Int × Int)) :
    x ∈ (addMonth key inv pay m).map Prod.fst ↔ x ∈ m.map Prod.fst ∨ x = key := by
  rw [addMonth_map_fst]
  by_cases hmem : key ∈ m.map Prod.fst
  · rw [if_pos hmem]
    constructor
    · exact Or.inl
    · rintro (h | rfl)
      · exact h
      · exact hmem
  · rw [if_neg hmem]
    simp [List.mem_append]

/-- `addMonth` preserves key distinctness. -/
theorem addMonth_nodup (key : String) (inv pay : Int) (m : List (String × Int × Int))
    (h : (m.map Prod.fst).Nodup) : ((addMonth key inv pay m).map Prod.fst).Nodup := by
  rw [addMonth_map_fst]
  by_cases hmem : key ∈ m.map Prod.fst
  · rw [if_pos hmem]
    exact h
  · rw [if_neg hmem]
    exact h.append (List.nodup_singleton key)
      (fun x hx hx2 => hmem ((List.mem_singleton.mp hx2) ▸ hx))

/-- Sum of the `invest` components of the groups keyed `k`. -/
def sumFstFor (k : String) (m : List (String × Int × Int)) : Int :=
  ((m.filter (fun g => g.1 = k)).map (fun g => g.2.1)).sum

/-- Sum of the `payout` components of the groups keyed `k`. -/
def sumSndFor (k : String) (m : List (String × Int × Int)) : Int :=
  ((m.filter (fun g => g.1 = k)).map (fun g => g.2.2)).sum

/-- Effect of `addMonth` on the per-key `invest` sum. -/
theorem sumFstFor_addMonth (key k : String) (inv pay : Int) :
    ∀ m, sumFstFor k (addMonth key inv pay m)
      = sumFstFor k m + (if key = k then inv else 0)
  | [] => by
    by_cases h : key = k <;> simp [addMonth, sumFstFor, h]
  | g :: gs => by
    have ih := sumFstFor_addMonth key k inv pay gs
    by_cases hg : g.1 = key
    · by_cases hk : g.1 = k
      · have hkey : key = k := hg ▸ hk
        simp [addMonth, hg, sumFstFor, List.filter_cons, hk, hkey]
        ring
      · have hkey : ¬ key = k := fun hx => hk (hg.trans hx)
        simp [addMonth, hg, sumFstFor, List.filter_cons, hk, hkey]
    · simp only [addMonth, if_neg hg]
      by_cases hk : g.1 = k
      · simp only [sumFstFor, List.filter_cons] at ih ⊢
        simp [hk] at ih ⊢
        rw [ih]
        ring
      · simp only [sumFstFor, List.filter_cons] at ih ⊢
        simp [hk] at ih ⊢
        rw [ih]

/-- Effect of `addMonth` on the per-key `payout` sum. -/
theorem sumSndFor_addMonth (key k : String) (inv pay : Int) :
    ∀ m, sumSndFor k (addMonth key inv pay m)
      = sumSndFor k m + (if key = k then pay else 0)
  | [] => by
    by_cases h : key = k <;> simp [addMonth, sumSndFor, h]
  | g :: gs => by
    have ih := sumSndFor_addMonth key k inv pay gs
    by_cases hg : g.1 = key
    · by_cases hk : g.1 = k
      · have hkey : key = k := hg ▸ hk
        simp [addMonth, hg, sumSndFor, List.filter_cons, hk, hkey]
        ring
      · have hkey : ¬ key = k := fun hx => hk (hg.trans hx)
        simp [addMonth, hg, sumSndFor, List.filter_cons, hk, hkey]
    · simp only [addMonth, if_neg hg]
      by_cases hk : g.1 = k
      · simp only [sumSndFor, List.filter_cons] at ih ⊢
        simp [hk] at ih ⊢
        rw [ih]
        ring
      · simp only [sumSndFor, List.filter_cons] at ih ⊢
        simp [hk] at ih ⊢
        rw [ih]

/-- Accumulated per-key `invest` sum of the grouping fold. -/
theorem groupAux_sumFst :
    ∀ (daily : List DailyEntry) (m : List (String × Int × Int)) (k : String),
      sumFstFor k (daily.foldl (fun m d => addMonth (monthKey d.date) d.invest d.payout m) m)
        = sumFstFor k m
          + ((daily.filter (fun d => monthKey d.date = k)).map (fun d => d.invest)).sum
  | [], m, k => by simp
  | d :: rest, m, k => by
    simp only [List.foldl_cons]
    rw [groupAux_sumFst rest _ k, sumFstFor_addMonth]
    by_cases hd : monthKey d.date = k
    · simp [List.filter_cons, hd]
      ring
    · simp [List.filter_cons, hd]

/-- Accumulated per-key `payout` sum of the grouping fold. -/
theorem groupAux_sumSnd :
    ∀ (daily : List DailyEntry) (m : List (String × Int × Int)) (k : String),
      sumSndFor k (daily.foldl (fun m d => addMonth (monthKey d.date) d.invest d.payout m) m)
        = sumSndFor k m
          + ((daily.filter (fun d => monthKey d.date = k)).map (fun d => d.payout)).sum
  | [], m, k => by simp
  | d :: rest, m, k => by
    simp only [List.foldl_cons]
    rw [groupAux_sumSnd rest _ k, sumSndFor_addMonth]
    by_cases hd : monthKey d.date = k
    · simp [List.filter_cons, hd]
      ring
    · simp [List.filter_cons, hd]

/-- The grouping fold keeps its keys distinct. -/
theorem groupAux_nodup :
    ∀ (daily : List DailyEntry) (m : List (String × Int × Int)),
      (m.map Prod.fst).Nodup →
      ((daily.foldl (fun m d => addMonth (monthKey d.date) d.invest d.payout m) m).map
        Prod.fst).Nodup
  | [], _, h => h
  | _ :: rest, m, h => groupAux_nodup rest _ (addMonth_nodup _ _ _ m h)

/-- The keys of the grouping fold are the start keys plus the month keys
of the processed daily entries. -/
theorem groupAux_mem_fst :
    ∀ (daily : List DailyEntry) (m : List (String × Int × Int)) (x : String),
      (x ∈ (daily.foldl (fun m d => addMonth (monthKey d.date) d.invest d.payout m) m).map
          Prod.fst)
        ↔ x ∈ m.map Prod.fst ∨ x ∈ daily.map (fun d => monthKey d.date)
  | [], m, x => by simp
  | d :: rest, m, x => by
    simp only [List.foldl_cons, List.map_cons, List.mem_cons]
    rw [groupAux_mem_fst rest _ x, mem_addMonth_fst]
    tauto

/-- With distinct keys, filtering on a member's key yields that member
alone. -/
theorem filter_fst_eq_singleton :
    ∀ (m : List (String × Int × Int)) (e : String × Int × Int),
      e ∈ m → (m.map Prod.fst).Nodup → m.filter (fun g => g.1 = e.1) = [e]
  | [], e, he, _ => absurd he (List.not_mem_nil e)
  | g :: gs, e, he, hnd => by
    rw [List.map_cons, List.nodup_cons] at hnd
    rcases List.mem_cons.mp he with rfl | he'
    · rw [List.filter_cons_of_pos (by simp)]
      have hnil : gs.filter (fun g' => g'.1 = e.1) = [] := by
        rw [List.filter_eq_nil_iff]
        intro g' hg'
        simp only [decide_eq_true_eq]
        intro hx
        exact hnd.1 (hx ▸ List.mem_map_of_mem Prod.fst hg')
      rw [hnil]
    · have hg : ¬ (g.1 = e.1) := fun hge =>
        hnd.1 (hge ▸ List.mem_map_of_mem Prod.fst he')
      rw [List.filter_cons_of_neg (by simpa using hg)]
      exact filter_fst_eq_singleton gs e he' hnd.2

/-- The keys of `groupMonths` are exactly the month keys of the daily
entries. -/
theorem groupMonths_mem_fst (daily : List DailyEntry) (x : String) :
    x ∈ (groupMonths daily).map Prod.fst ↔ x ∈ daily.map (fun d => monthKey d.date) := by
  rw [groupMonths, groupAux_mem_fst daily [] x]
  simp

/-- Every group of `groupMonths` carries the sums of the matching daily
entries. -/
theorem groupMonths_val (daily : List DailyEntry) (e : String × Int × Int)
    (he : e ∈ groupMonths daily) :
    e.2.1 = ((daily.filter (fun d => monthKey d.date = e.1)).map (fun d => d.invest)).sum ∧
    e.2.2 = ((daily.filter (fun d => monthKey d.date = e.1)).map (fun d => d.payout)).sum := by
  have hnodup : ((groupMonths daily).map Prod.fst).Nodup :=
    groupAux_nodup daily [] (by simp)
  have hfilter := filter_fst_eq_singleton (groupMonths daily) e he hnodup
  constructor
  · have h1 := groupAux_sumFst daily [] e.1
    have h0 : sumFstFor e.1 ([] : List (String × Int × Int)) = 0 := rfl
    rw [h0, zero_add] at h1
    have h2 : sumFstFor e.1 (groupMonths daily) = e.2.1 := by
      unfold sumFstFor
      rw [hfilter]
      simp
    rw [← h2]
    exact h1
  · have h1 := groupAux_sumSnd daily [] e.1
    have h0 : sumSndFor e.1 ([] : List (String × Int × Int)) = 0 := rfl
    rw [h0, zero_add] at h1
    have h2 : sumSndFor e.1 (groupMonths daily) = e.2.2 := by
      unfold sumSndFor
      rw [hfilter]
      simp
    rw [← h2]
    exact h1

/-- Correctness of a recomputed monthly list with respect to the daily
list: strictly sorted (hence duplicate-free) month keys, exactly the month
keys of the daily dates, per-month sums of the matching daily entries, and
the profit identity. -/
def MonthlyCorrect (data res : Ledger) : Prop :=
  ((res.monthly.map (fun e => e.month)).Pairwise (· < ·)) ∧
  (∀ m : String, (m ∈ res.monthly.map (fun e => e.month))
      ↔ m ∈ data.daily.map (fun d => monthKey d.date)) ∧
  (∀ e ∈ res.monthly,
    e.invest = ((data.daily.filter (fun d => monthKey d.date = e.month)).map
        (fun d => d.invest)).sum ∧
    e.payout = ((data.daily.filter (fun d => monthKey d.date = e.month)).map
        (fun d => d.payout)).sum ∧
    e.profit = e.payout - e.invest)

/-- A document whose dates are shorter than seven characters, on which the
7-character month grouping and the claim's `startswith` sum disagree. -/
def c4Ledger : Ledger :=
  { emptyLedger with daily :=
      [{ date := "26-2", dayOfWeek := "土", invest := 1, payout := 0, profit := -1,
         cumulative := -1, note := "" },
       { date := "26-21", dayOfWeek := "日", invest := 2, payout := 0, profit := -3,
         cumulative := -3, note := "" }] }

/-- C4 counterexample: on `c4Ledger` the monthly entry for `"26-2"` has
`invest = 1`, but the invest sum over the daily entries whose date starts
with `"26-2"` is `3` (the date `"26-21"` also starts with `"26-2"`), so
the claim's `startswith` reading of the per-month sums fails. -/
theorem c4_counterexample :
    (update_monthly c4Ledger).monthly.map (fun e => (e.month, e.invest))
      = [("26-2", 1), ("26-21", 2)] ∧
    ((c4Ledger.daily.filter (fun d => strStartsWith d.date "26-2")).map
        (fun d => d.invest)).sum = 3 := by
  decide

/-- C4 amended: after `update_monthly` the monthly list has exactly one
entry per distinct 7-character month prefix of the daily dates, sorted
strictly ascending by month key, each entry summing `invest` and `payout`
over the daily entries whose 7-character date prefix equals the month
(rather than the claim's `startswith`, which differs on dates shorter than
seven characters), with `profit = payout - invest`; the previous monthly
list is entirely replaced (the result depends only on the daily list). -/
theorem c4_amended_monthly (data data' : Ledger) (h : data.daily = data'.daily) :
    MonthlyCorrect data (update_monthly data) ∧
    (update_monthly data).monthly = (update_monthly data').monthly := by
  have hmonths : (update_monthly data).monthly.map (fun e => e.month)
      = (List.insertionSort monthLE (groupMonths data.daily)).map Prod.fst := by
    simp only [update_monthly, List.map_map]
    rfl
  have hsorted := List.sorted_insertionSort monthLE (groupMonths data.daily)
  have hperm := List.perm_insertionSort monthLE (groupMonths data.daily)
  have hnodupG : ((groupMonths data.daily).map Prod.fst).Nodup :=
    groupAux_nodup data.daily [] (by simp)
  have hnodupS : ((List.insertionSort monthLE (groupMonths data.daily)).map Prod.fst).Nodup :=
    ((hperm.map Prod.fst).nodup_iff).mpr hnodupG
  refine ⟨⟨?_, ?_, ?_⟩, ?_⟩
  · rw [hmonths]
    have hle : ((List.insertionSort monthLE (groupMonths data.daily)).map
        Prod.fst).Pairwise (· ≤ ·) :=
      List.pairwise_map.mpr (hsorted.imp (fun hab => hab))
    exact (hle.and hnodupS).imp (fun hab => lt_of_le_of_ne hab.1 hab.2)
  · intro m
    rw [hmonths, (hperm.map Prod.fst).mem_iff, groupMonths_mem_fst]
  · intro e he
    simp only [update_monthly, List.mem_map] at he
    obtain ⟨g, hg, rfl⟩ := he
    rw [List.mem_insertionSort] at hg
    have hval := groupMonths_val data.daily g hg
    exact ⟨hval.1, hval.2, rfl⟩
  · simp only [update_monthly, h]

/-- `wLedgerD` with a different non-`daily` field, to instantiate the
replacement part of the amended C4. -/
def wLedgerD' : Ledger := { wLedgerD with lastUpdated := "2026-03-01" }

/-- Witness for the amended C4 at a concrete document. -/
theorem c4_amended_monthly_witness :
    MonthlyCorrect wLedgerD (update_monthly wLedgerD) ∧
    (update_monthly wLedgerD).monthly = (update_monthly wLedgerD').monthly :=
  c4_amended_monthly wLedgerD wLedgerD' rfl

end Keiba
